import Mathlib

/-!
Shallow embedding of the consensus core of snarkOS2:
`ConsensusInner::insert_into_mempool`, `ConsensusInner::cleanse_memory_pool`
and `ConsensusInner::scan_forks` from `src/consensus/src/consensus/inner/mod.rs`,
plus the Sync Handler `increment` step (modelled from the spec, since only its
integration test is among the sources).

Digests are modelled as natural numbers; the ledger and storage adapters are
modelled as records of query functions, mirroring the adapter contracts the
code calls into (`contains_serial`, `contains_commitment`, `contains_memo`,
`get_block_hashes`, `get_block_children`).  The mempool's maps/sets are
modelled as insertion-ordered lists with set-semantics insertion, matching the
order-preserving map/set containers the Rust code iterates over.
-/

namespace SnarkOS

/-- A content digest identifying a block or a transaction. -/
abbrev Digest := Nat

/-- `snarkvm_utilities::has_duplicates`: whether the list contains a repeated
element. -/
def has_duplicates : List Digest → Bool
  | [] => false
  | x :: xs => xs.contains x || has_duplicates xs

/-- `snarkos_storage::SerialTransaction`: id digest, spent serial numbers,
created commitments, memorandum, byte size. -/
structure SerialTransaction where
  id : Digest
  old_serial_numbers : List Digest
  new_commitments : List Digest
  memorandum : Digest
  size : Nat
  deriving DecidableEq, Repr

/-- `snarkos_consensus::memory_pool::MempoolEntry`: a transaction with its
cached byte size. -/
structure MempoolEntry where
  size_in_bytes : Nat
  transaction : SerialTransaction
  deriving DecidableEq, Repr

/-- `snarkos_consensus::MemoryPool`: transactions keyed by digest (insertion
order preserved), plus the three reservation sets. -/
structure MemoryPool where
  transactions : List (Digest × MempoolEntry)
  serial_numbers : List Digest
  commitments : List Digest
  memos : List Digest
  deriving DecidableEq, Repr

/-- `Default::default()` for `MemoryPool`: the empty pool. -/
def MemoryPool.empty : MemoryPool :=
  { transactions := [], serial_numbers := [], commitments := [], memos := [] }

/-- The `DynLedger` adapter contract: membership queries against canonical
ledger state. -/
structure Ledger where
  contains_serial : Digest → Bool
  contains_commitment : Digest → Bool
  contains_memo : Digest → Bool

/-- Set-semantics insertion into a reservation set. -/
def setInsert (s : List Digest) (x : Digest) : List Digest :=
  if s.contains x then s else s ++ [x]

/-- `contains_key` on the digest-keyed transaction map. -/
def containsKey (m : List (Digest × MempoolEntry)) (k : Digest) : Bool :=
  m.any (fun kv => kv.1 == k)

/-- Lines 133-148 of `insert_into_mempool`: reserve all serial numbers, all
commitments and the memorandum, and insert the entry. -/
def reserve (pool : MemoryPool) (transaction : SerialTransaction) : MemoryPool :=
  { transactions := pool.transactions ++
      [(transaction.id, { size_in_bytes := transaction.size, transaction := transaction })],
    serial_numbers := transaction.old_serial_numbers.foldl setInsert pool.serial_numbers,
    commitments := transaction.new_commitments.foldl setInsert pool.commitments,
    memos := setInsert pool.memos transaction.memorandum }

/-- `ConsensusInner::insert_into_mempool`: adds the entry to the memory pool if
valid in the current ledger.  `Except Unit` stands for
`Result<_, ConsensusError>`; `none` is the "not admitted" result. -/
def insert_into_mempool (ledger : Ledger) (pool : MemoryPool)
    (transaction : SerialTransaction) : Except Unit (Option Digest × MemoryPool) :=
  let transaction_id : Digest := transaction.id
  if has_duplicates transaction.old_serial_numbers
      || has_duplicates transaction.new_commitments
      || containsKey pool.transactions transaction_id then
    Except.ok (none, pool)
  else if transaction.old_serial_numbers.any
      (fun sn => ledger.contains_serial sn || pool.serial_numbers.contains sn) then
    Except.ok (none, pool)
  else if transaction.new_commitments.any
      (fun cm => ledger.contains_commitment cm || pool.commitments.contains cm) then
    Except.ok (none, pool)
  else if ledger.contains_memo transaction.memorandum
      || pool.memos.contains transaction.memorandum then
    Except.ok (none, pool)
  else
    Except.ok (some transaction_id, reserve pool transaction)

/-- The disjunction of the four rejection checks of `insert_into_mempool`
(lines 108-131), for stating lemmas about the if-chain. -/
def mempool_rejects (ledger : Ledger) (pool : MemoryPool)
    (transaction : SerialTransaction) : Bool :=
  (has_duplicates transaction.old_serial_numbers
      || has_duplicates transaction.new_commitments
      || containsKey pool.transactions transaction.id)
    || transaction.old_serial_numbers.any
        (fun sn => ledger.contains_serial sn || pool.serial_numbers.contains sn)
    || transaction.new_commitments.any
        (fun cm => ledger.contains_commitment cm || pool.commitments.contains cm)
    || (ledger.contains_memo transaction.memorandum
        || pool.memos.contains transaction.memorandum)

/-- The loop of `cleanse_memory_pool` (lines 157-162), abstracted over the
re-admission call it makes on each entry: iterate over the old entries,
re-inserting into the fresh pool; on the first error restore the pre-cleanse
snapshot (`old_mempool`) and return the error.  The second component is the
final `self.memory_pool` state. -/
def cleanseLoop (insertFn : MemoryPool → SerialTransaction → Except Unit (Option Digest × MemoryPool))
    (old_mempool : MemoryPool) :
    List (Digest × MempoolEntry) → MemoryPool → Except Unit Unit × MemoryPool
  | [], pool => (Except.ok (), pool)
  | kv :: rest, pool =>
    match insertFn pool kv.2.transaction with
    | Except.ok r => cleanseLoop insertFn old_mempool rest r.2
    | Except.error e => (Except.error e, old_mempool)

/-- The body of `cleanse_memory_pool`, abstracted over the re-admission
function: `std::mem::take` empties the pool, then every old entry is replayed
through the re-admission call. -/
def cleanse_with
    (insertFn : MemoryPool → SerialTransaction → Except Unit (Option Digest × MemoryPool))
    (pool : MemoryPool) : Except Unit Unit × MemoryPool :=
  cleanseLoop insertFn pool pool.transactions MemoryPool.empty

/-- `ConsensusInner::cleanse_memory_pool`: cleanse the memory pool of outdated
transactions by replaying every entry through `insert_into_mempool`. -/
def cleanse_memory_pool (ledger : Ledger) (pool : MemoryPool) :
    Except Unit Unit × MemoryPool :=
  cleanse_with (insert_into_mempool ledger) pool

/-- The `DynStorage` adapter contract as `scan_forks` consumes it:
`get_block_hashes` is the response to the single
`get_block_hashes(OLDEST_FORK_THRESHOLD, CanonOnly(Descending))` query
(newest-first canonical hashes), and `get_block_children` lists the known
children of a block. -/
structure Storage where
  get_block_hashes : List Digest
  get_block_children : Digest → List Digest

/-- The body of one iteration of the `windows(2)` loop of `scan_forks`
(lines 85-95): for the window `[ignore_child_hash, target_hash]`, skip when the
target's only known child is the canonical child, else report every
non-canonical child as a fork record. -/
def fork_records_for (storage : Storage) (ignore_child_hash target_hash : Digest) :
    List (Digest × Digest) :=
  let children := storage.get_block_children target_hash
  if children.length == 1 && children.head? == some ignore_child_hash then
    []
  else
    (children.filter (fun child => child != ignore_child_hash)).map
      (fun child => (target_hash, child))

/-- The `for canon_hashes in canon_hashes.windows(2)` loop of `scan_forks`:
window `[a, b]` has `ignore_child_hash = a` (index 0) and `target_hash = b`
(index 1). -/
def scanWindows (storage : Storage) : List Digest → List (Digest × Digest)
  | a :: b :: rest => fork_records_for storage a b ++ scanWindows storage (b :: rest)
  | _ => []

/-- `ConsensusInner::scan_forks`: scans recent canonical blocks for forks. -/
def scan_forks (storage : Storage) : List (Digest × Digest) :=
  let canon_hashes := storage.get_block_hashes
  if canon_hashes.length < 2 then []
  else scanWindows storage canon_hashes

/-- Modelled from the spec: the protocol messages produced by the Sync Handler
(`GetBlock(digest)`, `GetSync(starting_hashes)`); the handler implementation is
not among the provided sources, only its integration test is. -/
inductive SyncMessage where
  | GetBlock (digest : Digest)
  | GetSync (starting_hashes : List Digest)
  deriving DecidableEq, Repr

/-- Modelled from the spec: the per-peer `SyncHandler` state — a queue of
outstanding block-header digests and a syncing flag; the target address and
height marker play no role in the claims and are omitted. -/
structure SyncHandler where
  block_headers : List Digest
  syncing : Bool
  deriving DecidableEq, Repr

/-- Modelled from the spec: `SyncHandler::increment` — with a non-empty header
queue, pop the head and send one `GetBlock` request for it; with an empty queue
and syncing active, send one `GetSync` request with an empty starting sequence.
Returns the list of messages sent over the channel and the updated handler. -/
def increment (h : SyncHandler) : List SyncMessage × SyncHandler :=
  match h.block_headers with
  | d :: rest => ([SyncMessage.GetBlock d], { h with block_headers := rest })
  | [] =>
    if h.syncing then ([SyncMessage.GetSync []], h)
    else ([], h)

/-- The Mempool invariant of the spec: every serial number, commitment and
memorandum appearing in any stored transaction is in the corresponding
reservation set, and every reserved one appears in some stored transaction. -/
def pool_invariant (p : MemoryPool) : Prop :=
  (∀ x : Digest, x ∈ p.serial_numbers ↔
      ∃ kv ∈ p.transactions, x ∈ kv.2.transaction.old_serial_numbers) ∧
  (∀ x : Digest, x ∈ p.commitments ↔
      ∃ kv ∈ p.transactions, x ∈ kv.2.transaction.new_commitments) ∧
  (∀ x : Digest, x ∈ p.memos ↔
      ∃ kv ∈ p.transactions, x = kv.2.transaction.memorandum)

/-- A transaction passes every per-transaction admission check: no internal
duplicates and nothing it mentions is on the canonical ledger. -/
def tx_standalone_ok (ledger : Ledger) (t : SerialTransaction) : Bool :=
  !has_duplicates t.old_serial_numbers
    && !has_duplicates t.new_commitments
    && t.old_serial_numbers.all (fun sn => !ledger.contains_serial sn)
    && t.new_commitments.all (fun cm => !ledger.contains_commitment cm)
    && !ledger.contains_memo t.memorandum

/-- Two transactions are mutually consistent: distinct digests, no shared
serial number, no shared commitment, distinct memoranda. -/
def txs_disjoint (t1 t2 : SerialTransaction) : Bool :=
  t1.id != t2.id
    && t1.old_serial_numbers.all (fun sn => !t2.old_serial_numbers.contains sn)
    && t1.new_commitments.all (fun cm => !t2.new_commitments.contains cm)
    && t1.memorandum != t2.memorandum

/-- A stored entry is well-formed: keyed by its transaction's digest with the
byte size cached from the transaction (which is how `insert_into_mempool`
builds every entry). -/
def entry_wf (kv : Digest × MempoolEntry) : Bool :=
  kv.1 == kv.2.transaction.id && kv.2.size_in_bytes == kv.2.transaction.size

/-- Every pair of distinct entries holds mutually consistent transactions. -/
def pairwiseDisjoint : List (Digest × MempoolEntry) → Bool
  | [] => true
  | kv :: rest =>
    rest.all (fun kv2 => txs_disjoint kv.2.transaction kv2.2.transaction)
      && pairwiseDisjoint rest

/-- A transaction conflicts with nothing already reserved in the pool. -/
def tx_fresh_for (pool : MemoryPool) (t : SerialTransaction) : Bool :=
  !containsKey pool.transactions t.id
    && t.old_serial_numbers.all (fun sn => !pool.serial_numbers.contains sn)
    && t.new_commitments.all (fun cm => !pool.commitments.contains cm)
    && !pool.memos.contains t.memorandum

/-- A list of pool entries is mutually consistent and still valid against the
ledger: every entry is well-formed and individually admissible, and the entries
are pairwise disjoint. -/
def mutually_consistent (ledger : Ledger) (entries : List (Digest × MempoolEntry)) : Bool :=
  entries.all (fun kv => tx_standalone_ok ledger kv.2.transaction && entry_wf kv)
    && pairwiseDisjoint entries

/-! Concrete fixtures used by the witness theorems. -/

/-- A ledger on which no serial number, commitment or memorandum is spent. -/
def ledger0 : Ledger :=
  { contains_serial := fun _ => false,
    contains_commitment := fun _ => false,
    contains_memo := fun _ => false }

/-- Sample transaction. -/
def txA : SerialTransaction :=
  { id := 1, old_serial_numbers := [10], new_commitments := [20], memorandum := 30, size := 100 }

/-- Sample transaction sharing serial number 10 with `txA`. -/
def txB : SerialTransaction :=
  { id := 2, old_serial_numbers := [10], new_commitments := [21], memorandum := 31, size := 90 }

/-- Sample transaction with an internally duplicated serial number. -/
def txDup : SerialTransaction :=
  { id := 3, old_serial_numbers := [11, 11], new_commitments := [22], memorandum := 33, size := 50 }

/-- The pool holding exactly `txA`, as built by admitting it into the empty
pool. -/
def poolA : MemoryPool :=
  { transactions := [(1, { size_in_bytes := 100, transaction := txA })],
    serial_numbers := [10], commitments := [20], memos := [30] }

/-- A re-admission function that always fails with an internal error. -/
def errFn : MemoryPool → SerialTransaction → Except Unit (Option Digest × MemoryPool) :=
  fun _ _ => Except.error ()

/-- Storage with an empty canonical history. -/
def storage0 : Storage :=
  { get_block_hashes := [], get_block_children := fun _ => [] }

/-- Storage with canonical hashes `[5, 3]` (newest first) where block 3 has the
canonical child 5 and a non-canonical child 9. -/
def storage1 : Storage :=
  { get_block_hashes := [5, 3],
    get_block_children := fun t => if t == 3 then [5, 9] else [] }

/-- A sync handler mid-fetch with two queued headers. -/
def handlerA : SyncHandler := { block_headers := [7, 8], syncing := true }

/-- A sync handler with an exhausted queue, still syncing. -/
def handlerB : SyncHandler := { block_headers := [], syncing := true }

/-! Basic lemmas about the container primitives. -/

theorem contains_iff (s : List Digest) (x : Digest) : s.contains x = true ↔ x ∈ s := by
  simp [List.contains, List.elem_iff]

theorem setInsert_mem (s : List Digest) (x y : Digest) :
    y ∈ setInsert s x ↔ y ∈ s ∨ y = x := by
  simp only [setInsert]
  split
  · rename_i h
    rw [contains_iff] at h
    exact ⟨fun hy => Or.inl hy, fun hy => hy.elim id (fun e => e ▸ h)⟩
  · simp [List.mem_append]

theorem foldl_setInsert_mem (l : List Digest) (s : List Digest) (y : Digest) :
    y ∈ l.foldl setInsert s ↔ y ∈ s ∨ y ∈ l := by
  induction l generalizing s with
  | nil => simp
  | cons a tl ih =>
    simp only [List.foldl_cons, ih, setInsert_mem, List.mem_cons]
    tauto

theorem containsKey_iff (m : List (Digest × MempoolEntry)) (k : Digest) :
    containsKey m k = true ↔ ∃ kv ∈ m, kv.1 = k := by
  simp [containsKey, List.any_eq_true, beq_iff_eq]

theorem containsKey_append (m1 m2 : List (Digest × MempoolEntry)) (k : Digest) :
    containsKey (m1 ++ m2) k = (containsKey m1 k || containsKey m2 k) := by
  simp [containsKey, List.any_append]

/-! Characterization of `insert_into_mempool` as a single check-then-reserve
step. -/

theorem insert_into_mempool_eq (ledger : Ledger) (p : MemoryPool) (t : SerialTransaction) :
    insert_into_mempool ledger p t =
      if mempool_rejects ledger p t then Except.ok (none, p)
      else Except.ok (some t.id, reserve p t) := by
  simp only [insert_into_mempool, mempool_rejects]
  rcases Bool.eq_false_or_eq_true (has_duplicates t.old_serial_numbers
      || has_duplicates t.new_commitments || containsKey p.transactions t.id) with hA | hA <;>
    rcases Bool.eq_false_or_eq_true (t.old_serial_numbers.any
      fun sn => ledger.contains_serial sn || p.serial_numbers.contains sn) with hB | hB <;>
    rcases Bool.eq_false_or_eq_true (t.new_commitments.any
      fun cm => ledger.contains_commitment cm || p.commitments.contains cm) with hC | hC <;>
    rcases Bool.eq_false_or_eq_true (ledger.contains_memo t.memorandum
      || p.memos.contains t.memorandum) with hD | hD <;>
    (simp only [hA, hB, hC, hD]; simp)

theorem insert_rejects_eq (ledger : Ledger) (p : MemoryPool) (t : SerialTransaction)
    (h : mempool_rejects ledger p t = true) :
    insert_into_mempool ledger p t = Except.ok (none, p) := by
  rw [insert_into_mempool_eq, if_pos h]

theorem insert_admits_eq (ledger : Ledger) (p : MemoryPool) (t : SerialTransaction)
    (h : mempool_rejects ledger p t = false) :
    insert_into_mempool ledger p t = Except.ok (some t.id, reserve p t) := by
  rw [insert_into_mempool_eq, if_neg (by simp [h])]

theorem insert_ok_some_inv (ledger : Ledger) (p p' : MemoryPool) (t : SerialTransaction)
    (d : Digest) (h : insert_into_mempool ledger p t = Except.ok (some d, p')) :
    mempool_rejects ledger p t = false ∧ d = t.id ∧ p' = reserve p t := by
  rw [insert_into_mempool_eq] at h
  by_cases hr : mempool_rejects ledger p t = true
  · rw [if_pos hr] at h
    simp at h
  · rw [if_neg hr] at h
    simp only [Except.ok.injEq, Prod.mk.injEq, Option.some.injEq] at h
    exact ⟨by simpa using hr, h.1.symm, h.2.symm⟩

theorem insert_into_mempool_ok (ledger : Ledger) (p : MemoryPool) (t : SerialTransaction) :
    ∃ r, insert_into_mempool ledger p t = Except.ok r := by
  rw [insert_into_mempool_eq]
  split <;> exact ⟨_, rfl⟩

/-! Lemmas about the cleanse loop. -/

theorem cleanseLoop_error_snd
    (insertFn : MemoryPool → SerialTransaction → Except Unit (Option Digest × MemoryPool))
    (old : MemoryPool) :
    ∀ (entries : List (Digest × MempoolEntry)) (pool : MemoryPool) (e : Unit),
      (cleanseLoop insertFn old entries pool).1 = Except.error e →
      (cleanseLoop insertFn old entries pool).2 = old := by
  intro entries
  induction entries with
  | nil => intro pool e h; simp [cleanseLoop] at h
  | cons kv rest ih =>
    intro pool e h
    simp only [cleanseLoop] at h ⊢
    cases hins : insertFn pool kv.2.transaction with
    | ok r =>
      rw [hins] at h
      exact ih r.2 e h
    | error e2 => rfl

theorem cleanseLoop_insert_ok (ledger : Ledger) (old : MemoryPool) :
    ∀ (entries : List (Digest × MempoolEntry)) (pool : MemoryPool),
      (cleanseLoop (insert_into_mempool ledger) old entries pool).1 = Except.ok () := by
  intro entries
  induction entries with
  | nil => intro pool; rfl
  | cons kv rest ih =>
    intro pool
    obtain ⟨r, hr⟩ := insert_into_mempool_ok ledger pool kv.2.transaction
    simp only [cleanseLoop, hr]
    exact ih r.2

/-! Lemmas about the reservation invariant. -/

theorem pool_invariant_empty : pool_invariant MemoryPool.empty := by
  refine ⟨fun x => ?_, fun x => ?_, fun x => ?_⟩ <;> simp [MemoryPool.empty]

theorem reserve_invariant (p : MemoryPool) (t : SerialTransaction)
    (hinv : pool_invariant p) : pool_invariant (reserve p t) := by
  obtain ⟨hs, hcm, hm⟩ := hinv
  refine ⟨fun x => ?_, fun x => ?_, fun x => ?_⟩
  · simp only [reserve, foldl_setInsert_mem, hs x, List.mem_append, List.mem_singleton]
    constructor
    · rintro (⟨kv, hkv, hx⟩ | hx)
      · exact ⟨kv, Or.inl hkv, hx⟩
      · exact ⟨(t.id, { size_in_bytes := t.size, transaction := t }), Or.inr rfl, hx⟩
    · rintro ⟨kv, hkv | rfl, hx⟩
      · exact Or.inl ⟨kv, hkv, hx⟩
      · exact Or.inr hx
  · simp only [reserve, foldl_setInsert_mem, hcm x, List.mem_append, List.mem_singleton]
    constructor
    · rintro (⟨kv, hkv, hx⟩ | hx)
      · exact ⟨kv, Or.inl hkv, hx⟩
      · exact ⟨(t.id, { size_in_bytes := t.size, transaction := t }), Or.inr rfl, hx⟩
    · rintro ⟨kv, hkv | rfl, hx⟩
      · exact Or.inl ⟨kv, hkv, hx⟩
      · exact Or.inr hx
  · simp only [reserve, setInsert_mem, hm x, List.mem_append, List.mem_singleton]
    constructor
    · rintro (⟨kv, hkv, hx⟩ | hx)
      · exact ⟨kv, Or.inl hkv, hx⟩
      · exact ⟨(t.id, { size_in_bytes := t.size, transaction := t }), Or.inr rfl, hx⟩
    · rintro ⟨kv, hkv | rfl, hx⟩
      · exact Or.inl ⟨kv, hkv, hx⟩
      · exact Or.inr hx

theorem insert_preserves_invariant (ledger : Ledger) (p p' : MemoryPool)
    (t : SerialTransaction) (r : Option Digest)
    (hinv : pool_invariant p)
    (h : insert_into_mempool ledger p t = Except.ok (r, p')) : pool_invariant p' := by
  rw [insert_into_mempool_eq] at h
  split_ifs at h
  · simp only [Except.ok.injEq, Prod.mk.injEq] at h
    rw [← h.2]
    exact hinv
  · simp only [Except.ok.injEq, Prod.mk.injEq] at h
    rw [← h.2]
    exact reserve_invariant p t hinv

theorem cleanseLoop_invariant (ledger : Ledger) (old : MemoryPool) :
    ∀ (entries : List (Digest × MempoolEntry)) (pool : MemoryPool),
      pool_invariant pool →
      pool_invariant (cleanseLoop (insert_into_mempool ledger) old entries pool).2 := by
  intro entries
  induction entries with
  | nil => intro pool h; exact h
  | cons kv rest ih =>
    intro pool h
    obtain ⟨r, hr⟩ := insert_into_mempool_ok ledger pool kv.2.transaction
    simp only [cleanseLoop, hr]
    exact ih r.2 (insert_preserves_invariant ledger pool r.2 kv.2.transaction r.1 h hr)

/-! Lemmas about mutually consistent pools (used for the cleanse-identity
claim). -/

theorem contains_eq_false (s : List Digest) (x : Digest) :
    s.contains x = false ↔ x ∉ s := by
  constructor
  · intro h hmem
    rw [← contains_iff] at hmem
    rw [h] at hmem
    cases hmem
  · intro h
    cases hc : s.contains x
    · rfl
    · exact absurd ((contains_iff s x).mp hc) h

theorem rejects_false_of_ok_fresh (ledger : Ledger) (pool : MemoryPool)
    (t : SerialTransaction)
    (hok : tx_standalone_ok ledger t = true)
    (hfresh : tx_fresh_for pool t = true) :
    mempool_rejects ledger pool t = false := by
  simp only [tx_standalone_ok, Bool.and_eq_true, Bool.not_eq_true', List.all_eq_true] at hok
  simp only [tx_fresh_for, Bool.and_eq_true, Bool.not_eq_true', List.all_eq_true] at hfresh
  obtain ⟨⟨⟨⟨hd1, hd2⟩, hls⟩, hlc⟩, hlm⟩ := hok
  obtain ⟨⟨⟨hk, hps⟩, hpc⟩, hpm⟩ := hfresh
  have hps' : ∀ sn ∈ t.old_serial_numbers, sn ∉ pool.serial_numbers :=
    fun sn hsn => (contains_eq_false _ _).mp (hps sn hsn)
  have hpc' : ∀ cm ∈ t.new_commitments, cm ∉ pool.commitments :=
    fun cm hcm => (contains_eq_false _ _).mp (hpc cm hcm)
  have hpm' : t.memorandum ∉ pool.memos := (contains_eq_false _ _).mp hpm
  simp [mempool_rejects, hd1, hd2, hk, hlm, hpm']
  exact ⟨fun x hx => ⟨hls x hx, hps' x hx⟩, fun x hx => ⟨hlc x hx, hpc' x hx⟩⟩

theorem txs_disjoint_spec (t1 t2 : SerialTransaction) (h : txs_disjoint t1 t2 = true) :
    t1.id ≠ t2.id ∧
    (∀ x, x ∈ t1.old_serial_numbers → x ∈ t2.old_serial_numbers → False) ∧
    (∀ x, x ∈ t1.new_commitments → x ∈ t2.new_commitments → False) ∧
    t1.memorandum ≠ t2.memorandum := by
  simp only [txs_disjoint, Bool.and_eq_true, bne_iff_ne, Bool.not_eq_true',
    List.all_eq_true] at h
  obtain ⟨⟨⟨hid, hs⟩, hc⟩, hm⟩ := h
  refine ⟨hid, fun x hx1 hx2 => ?_, fun x hx1 hx2 => ?_, hm⟩
  · exact (contains_eq_false _ _).mp (hs x hx1) hx2
  · exact (contains_eq_false _ _).mp (hc x hx1) hx2

theorem entry_wf_eq (kv : Digest × MempoolEntry) (h : entry_wf kv = true) :
    (kv.2.transaction.id,
      ({ size_in_bytes := kv.2.transaction.size,
         transaction := kv.2.transaction } : MempoolEntry)) = kv := by
  obtain ⟨k, e⟩ := kv
  obtain ⟨sz, tx⟩ := e
  simp only [entry_wf, Bool.and_eq_true, beq_iff_eq] at h
  obtain ⟨h1, h2⟩ := h
  rw [h1, h2]

theorem cleanseLoop_consistent (ledger : Ledger) (old : MemoryPool) :
    ∀ (entries : List (Digest × MempoolEntry)) (acc : MemoryPool),
      (∀ kv ∈ entries, tx_standalone_ok ledger kv.2.transaction = true ∧ entry_wf kv = true) →
      pairwiseDisjoint entries = true →
      (∀ kv ∈ entries, tx_fresh_for acc kv.2.transaction = true) →
      (cleanseLoop (insert_into_mempool ledger) old entries acc).1 = Except.ok () ∧
      (cleanseLoop (insert_into_mempool ledger) old entries acc).2.transactions
          = acc.transactions ++ entries ∧
      (∀ x : Digest,
        x ∈ (cleanseLoop (insert_into_mempool ledger) old entries acc).2.serial_numbers ↔
          x ∈ acc.serial_numbers ∨ ∃ kv ∈ entries, x ∈ kv.2.transaction.old_serial_numbers) ∧
      (∀ x : Digest,
        x ∈ (cleanseLoop (insert_into_mempool ledger) old entries acc).2.commitments ↔
          x ∈ acc.commitments ∨ ∃ kv ∈ entries, x ∈ kv.2.transaction.new_commitments) ∧
      (∀ x : Digest,
        x ∈ (cleanseLoop (insert_into_mempool ledger) old entries acc).2.memos ↔
          x ∈ acc.memos ∨ ∃ kv ∈ entries, x = kv.2.transaction.memorandum) := by
  intro entries
  induction entries with
  | nil =>
    intro acc hok hdisj hfresh
    refine ⟨rfl, by simp [cleanseLoop], fun x => ?_, fun x => ?_, fun x => ?_⟩ <;>
      simp [cleanseLoop]
  | cons kv rest ih =>
    intro acc hok hdisj hfresh
    have hokh := (hok kv (List.mem_cons_self kv rest)).1
    have hwfh := (hok kv (List.mem_cons_self kv rest)).2
    have hfreshh := hfresh kv (List.mem_cons_self kv rest)
    have hrej := rejects_false_of_ok_fresh ledger acc kv.2.transaction hokh hfreshh
    have hins := insert_admits_eq ledger acc kv.2.transaction hrej
    have hdisj' : rest.all (fun kv2 => txs_disjoint kv.2.transaction kv2.2.transaction) = true
        ∧ pairwiseDisjoint rest = true := by
      simpa [pairwiseDisjoint, Bool.and_eq_true] using hdisj
    have hdisjh := List.all_eq_true.mp hdisj'.1
    have hfreshrest : ∀ kv2 ∈ rest,
        tx_fresh_for (reserve acc kv.2.transaction) kv2.2.transaction = true := by
      intro kv2 hkv2
      obtain ⟨hdid, hdsn, hdcm, hdm⟩ := txs_disjoint_spec _ _ (hdisjh kv2 hkv2)
      have hf := hfresh kv2 (List.mem_cons_of_mem kv hkv2)
      simp only [tx_fresh_for, Bool.and_eq_true, Bool.not_eq_true', List.all_eq_true] at hf
      obtain ⟨⟨⟨hk, hps⟩, hpc⟩, hpm⟩ := hf
      simp only [tx_fresh_for, Bool.and_eq_true, Bool.not_eq_true', List.all_eq_true]
      refine ⟨⟨⟨?_, ?_⟩, ?_⟩, ?_⟩
      · simp only [reserve, containsKey_append, Bool.or_eq_false_iff]
        refine ⟨hk, ?_⟩
        simp only [containsKey, List.any_eq_false]
        intro q hq
        rw [List.mem_singleton] at hq
        subst hq
        simp only [beq_iff_eq]
        exact hdid
      · intro sn hsn
        rw [contains_eq_false]
        simp only [reserve]
        rw [foldl_setInsert_mem]
        rintro (hmem | hmem)
        · exact (contains_eq_false _ _).mp (hps sn hsn) hmem
        · exact hdsn sn hmem hsn
      · intro cm hcm
        rw [contains_eq_false]
        simp only [reserve]
        rw [foldl_setInsert_mem]
        rintro (hmem | hmem)
        · exact (contains_eq_false _ _).mp (hpc cm hcm) hmem
        · exact hdcm cm hmem hcm
      · rw [contains_eq_false]
        simp only [reserve]
        rw [setInsert_mem]
        rintro (hmem | hmem)
        · exact (contains_eq_false _ _).mp hpm hmem
        · exact hdm hmem.symm
    obtain ⟨ih1, ih2, ih3, ih4, ih5⟩ := ih (reserve acc kv.2.transaction)
      (fun kv2 hkv2 => hok kv2 (List.mem_cons_of_mem kv hkv2)) hdisj'.2 hfreshrest
    simp only [cleanseLoop, hins]
    refine ⟨ih1, ?_, fun x => ?_, fun x => ?_, fun x => ?_⟩
    · rw [ih2]
      simp only [reserve, List.append_assoc, List.singleton_append]
      rw [entry_wf_eq kv hwfh]
    · rw [ih3 x]
      simp only [reserve, foldl_setInsert_mem]
      constructor
      · rintro ((hx | hx) | ⟨kv2, hkv2, hx⟩)
        · exact Or.inl hx
        · exact Or.inr ⟨kv, List.mem_cons_self kv rest, hx⟩
        · exact Or.inr ⟨kv2, List.mem_cons_of_mem kv hkv2, hx⟩
      · rintro (hx | ⟨kv2, hkv2, hx⟩)
        · exact Or.inl (Or.inl hx)
        · rcases List.mem_cons.mp hkv2 with rfl | hkv2'
          · exact Or.inl (Or.inr hx)
          · exact Or.inr ⟨kv2, hkv2', hx⟩
    · rw [ih4 x]
      simp only [reserve, foldl_setInsert_mem]
      constructor
      · rintro ((hx | hx) | ⟨kv2, hkv2, hx⟩)
        · exact Or.inl hx
        · exact Or.inr ⟨kv, List.mem_cons_self kv rest, hx⟩
        · exact Or.inr ⟨kv2, List.mem_cons_of_mem kv hkv2, hx⟩
      · rintro (hx | ⟨kv2, hkv2, hx⟩)
        · exact Or.inl (Or.inl hx)
        · rcases List.mem_cons.mp hkv2 with rfl | hkv2'
          · exact Or.inl (Or.inr hx)
          · exact Or.inr ⟨kv2, hkv2', hx⟩
    · rw [ih5 x]
      simp only [reserve, setInsert_mem]
      constructor
      · rintro ((hx | hx) | ⟨kv2, hkv2, hx⟩)
        · exact Or.inl hx
        · exact Or.inr ⟨kv, List.mem_cons_self kv rest, hx⟩
        · exact Or.inr ⟨kv2, List.mem_cons_of_mem kv hkv2, hx⟩
      · rintro (hx | ⟨kv2, hkv2, hx⟩)
        · exact Or.inl (Or.inl hx)
        · rcases List.mem_cons.mp hkv2 with rfl | hkv2'
          · exact Or.inl (Or.inr hx)
          · exact Or.inr ⟨kv2, hkv2', hx⟩

/-! Lemmas about the fork scanner. -/

theorem skip_cond_iff (children : List Digest) (ign : Digest) :
    (children.length == 1 && children.head? == some ign) = true ↔ children = [ign] := by
  cases children with
  | nil => simp
  | cons a tl =>
    cases tl with
    | nil => simp [beq_iff_eq]
    | cons b tl2 => simp

theorem fork_records_for_mem (storage : Storage) (ign tgt : Digest)
    (q : Digest × Digest) (hq : q ∈ fork_records_for storage ign tgt) :
    q.1 = tgt ∧ q.2 ∈ storage.get_block_children tgt ∧ q.2 ≠ ign := by
  simp only [fork_records_for] at hq
  by_cases hcond : ((storage.get_block_children tgt).length == 1
      && (storage.get_block_children tgt).head? == some ign) = true
  · rw [if_pos hcond] at hq
    cases hq
  · rw [if_neg hcond] at hq
    obtain ⟨c, hcf, rfl⟩ := List.mem_map.mp hq
    obtain ⟨hcmem, hcneq⟩ := List.mem_filter.mp hcf
    exact ⟨rfl, hcmem, by simpa using hcneq⟩

theorem count_pair_map (tgt c : Digest) (l : List Digest) :
    (l.map (fun child => (tgt, child))).count (tgt, c) = l.count c := by
  induction l with
  | nil => rfl
  | cons a tl ih => simp [List.count_cons, ih, Prod.ext_iff]

theorem count_eq_one_of_nodup_mem (l : List Digest) (c : Digest)
    (hnd : l.Nodup) (hc : c ∈ l) : l.count c = 1 := by
  induction l with
  | nil => cases hc
  | cons a tl ih =>
    rw [List.nodup_cons] at hnd
    rcases List.mem_cons.mp hc with rfl | hmem
    · rw [List.count_cons_self, List.count_eq_zero.mpr hnd.1]
    · have hca : c ≠ a := fun h => hnd.1 (by rw [← h]; exact hmem)
      rw [List.count_cons_of_ne hca, ih hnd.2 hmem]

theorem scanWindows_eq (storage : Storage) (l : List Digest) :
    scanWindows storage l =
      ((List.range (l.length - 1)).map (fun i =>
          fork_records_for storage (l.getD i 0) (l.getD (i + 1) 0))).flatten := by
  induction l with
  | nil => rfl
  | cons a tl ih =>
    cases tl with
    | nil => rfl
    | cons b rest =>
      simp only [scanWindows]
      rw [ih]
      have hlen : (a :: b :: rest).length - 1 = rest.length + 1 := by simp
      rw [hlen, List.range_succ_eq_map]
      simp [List.map_map, Function.comp_def]

/-! The claims. -/

/-- C1: if transactions `t1` and `t2` share any serial number, commitment or
memorandum, then after `t1` is admitted into the pool, admitting `t2` returns
"not admitted" (`none`) and leaves the pool unchanged, so the two are never in
the pool simultaneously. -/
theorem c1_conflicting_second_admission_rejected (ledger : Ledger)
    (p p1 : MemoryPool) (t1 t2 : SerialTransaction) (d : Digest)
    (hshare : (∃ sn ∈ t1.old_serial_numbers, sn ∈ t2.old_serial_numbers) ∨
        (∃ cm ∈ t1.new_commitments, cm ∈ t2.new_commitments) ∨
        t1.memorandum = t2.memorandum)
    (h1 : insert_into_mempool ledger p t1 = Except.ok (some d, p1)) :
    insert_into_mempool ledger p1 t2 = Except.ok (none, p1) := by
  obtain ⟨hrej, hd, hp1⟩ := insert_ok_some_inv ledger p p1 t1 d h1
  subst hp1
  apply insert_rejects_eq
  simp only [mempool_rejects, Bool.or_eq_true]
  rcases hshare with ⟨sn, hsn1, hsn2⟩ | ⟨cm, hcm1, hcm2⟩ | hmemo
  · refine Or.inl (Or.inl (Or.inr ?_))
    rw [List.any_eq_true]
    refine ⟨sn, hsn2, ?_⟩
    rw [Bool.or_eq_true]
    right
    rw [contains_iff]
    show sn ∈ (reserve p t1).serial_numbers
    simp only [reserve]
    rw [foldl_setInsert_mem]
    exact Or.inr hsn1
  · refine Or.inl (Or.inr ?_)
    rw [List.any_eq_true]
    refine ⟨cm, hcm2, ?_⟩
    rw [Bool.or_eq_true]
    right
    rw [contains_iff]
    show cm ∈ (reserve p t1).commitments
    simp only [reserve]
    rw [foldl_setInsert_mem]
    exact Or.inr hcm1
  · refine Or.inr (Or.inr ?_)
    rw [contains_iff]
    show t2.memorandum ∈ (reserve p t1).memos
    simp only [reserve]
    rw [setInsert_mem]
    exact Or.inr hmemo.symm

/-- Witness for C1: `txA` and `txB` share serial number 10; after admitting
`txA` into the empty pool (yielding `poolA`), admitting `txB` is rejected. -/
theorem c1_witness :
    insert_into_mempool ledger0 poolA txB = Except.ok (none, poolA) :=
  c1_conflicting_second_admission_rejected ledger0 MemoryPool.empty poolA txA txB 1
    (Or.inl ⟨10, by decide, by decide⟩) (by rfl)

/-- C2: whenever `insert_into_mempool` returns "not admitted" (`none`), the
pool is completely unchanged — no reservation and no entry insertion happens on
any rejection path. -/
theorem c2_rejection_leaves_pool_unchanged (ledger : Ledger) (p p' : MemoryPool)
    (t : SerialTransaction)
    (h : insert_into_mempool ledger p t = Except.ok (none, p')) : p' = p := by
  rw [insert_into_mempool_eq] at h
  by_cases hr : mempool_rejects ledger p t = true
  · rw [if_pos hr] at h
    simp only [Except.ok.injEq, Prod.mk.injEq] at h
    exact h.2.symm
  · rw [if_neg hr] at h
    simp at h

/-- Witness for C2: admitting `txB` into `poolA` is rejected (serial number 10
is reserved), and the returned pool is `poolA` itself. -/
theorem c2_witness : poolA = poolA :=
  c2_rejection_leaves_pool_unchanged ledger0 poolA poolA txB (by rfl)

/-- C3: whenever the cleanse body returns an error — re-admission of some entry
raised an error rather than a mere rejection — the pool is rolled back to the
pre-cleanse snapshot, discarding entries already re-admitted.  Stated over the
cleanse loop abstracted on the re-admission call (`cleanse_with`);
`cleanse_memory_pool` is by definition `cleanse_with` applied to
`insert_into_mempool`. -/
theorem c3_cleanse_error_rolls_back
    (insertFn : MemoryPool → SerialTransaction → Except Unit (Option Digest × MemoryPool))
    (pool : MemoryPool) (e : Unit)
    (h : (cleanse_with insertFn pool).1 = Except.error e) :
    (cleanse_with insertFn pool).2 = pool :=
  cleanseLoop_error_snd insertFn pool pool.transactions MemoryPool.empty e h

/-- Witness for C3: with a re-admission function that always errors, cleansing
`poolA` restores `poolA`. -/
theorem c3_witness : (cleanse_with errFn poolA).2 = poolA :=
  c3_cleanse_error_rolls_back errFn poolA () (by rfl)

/-- C4: the reservation invariant — every serial number, commitment and
memorandum of a stored transaction is reserved, and every reservation belongs
to some stored transaction — is preserved by every `insert_into_mempool` and
every `cleanse_memory_pool` starting from any pool satisfying it. -/
theorem c4_invariant_preserved (ledger : Ledger) (p : MemoryPool)
    (hinv : pool_invariant p) :
    (∀ (t : SerialTransaction) (r : Option Digest) (p' : MemoryPool),
        insert_into_mempool ledger p t = Except.ok (r, p') → pool_invariant p') ∧
    pool_invariant (cleanse_memory_pool ledger p).2 := by
  constructor
  · intro t r p' h
    exact insert_preserves_invariant ledger p p' t r hinv h
  · exact cleanseLoop_invariant ledger p p.transactions MemoryPool.empty pool_invariant_empty

/-- Witness for C4: `poolA` satisfies the invariant; admitting `txB` (which is
rejected) and cleansing both preserve it. -/
theorem c4_witness : pool_invariant (cleanse_memory_pool ledger0 poolA).2 :=
  (c4_invariant_preserved ledger0 poolA
    (by refine ⟨fun x => ?_, fun x => ?_, fun x => ?_⟩ <;> simp [poolA, txA])).2

/-- C5: for an adjacent pair (`target_hash`, `ignore_child_hash`) examined by
the scan loop — if the target's only known child is the canonical child, the
pair contributes no fork records; otherwise every known child other than the
canonical one is reported as exactly one fork record `(target, other_child)`,
and nothing else is reported. -/
theorem c5_pair_fork_records (storage : Storage) (ignore_child_hash target_hash : Digest) :
    (storage.get_block_children target_hash = [ignore_child_hash] →
        fork_records_for storage ignore_child_hash target_hash = []) ∧
    (storage.get_block_children target_hash ≠ [ignore_child_hash] →
      (storage.get_block_children target_hash).Nodup →
        ∀ c ∈ storage.get_block_children target_hash, c ≠ ignore_child_hash →
          (fork_records_for storage ignore_child_hash target_hash).count
            (target_hash, c) = 1) ∧
    (∀ q ∈ fork_records_for storage ignore_child_hash target_hash,
        q.1 = target_hash ∧ q.2 ∈ storage.get_block_children target_hash ∧
          q.2 ≠ ignore_child_hash) := by
  refine ⟨?_, ?_, fun q hq => fork_records_for_mem storage _ _ q hq⟩
  · intro h
    simp only [fork_records_for]
    rw [if_pos ((skip_cond_iff _ _).mpr h)]
  · intro hne hnd c hc hcne
    simp only [fork_records_for]
    rw [if_neg (fun hcond => hne ((skip_cond_iff _ _).mp hcond))]
    rw [count_pair_map, List.count_filter (by simpa using hcne)]
    exact count_eq_one_of_nodup_mem _ c hnd hc

/-- Witness for C5: in `storage1` block 3 has children `[5, 9]` with canonical
child 5; the non-canonical child 9 is reported exactly once. -/
theorem c5_witness : (fork_records_for storage1 5 3).count (3, 9) = 1 :=
  (c5_pair_fork_records storage1 5 3).2.1 (by decide) (by decide) 9 (by decide) (by decide)

/-- C6: `scan_forks` examines exactly the adjacent pairs of the fetched
newest-first canonical window, pair `i` being
(`hashes[i+1]` as target, `hashes[i]` as child-in-canon), concatenating their
records in ascending `i`; hence the records preserve the window's descending
(newest-first) order of target blocks. -/
theorem c6_scan_pairs_and_order (storage : Storage) :
    scan_forks storage =
      ((List.range (storage.get_block_hashes.length - 1)).map (fun i =>
          fork_records_for storage (storage.get_block_hashes.getD i 0)
            (storage.get_block_hashes.getD (i + 1) 0))).flatten ∧
    (storage.get_block_hashes.Nodup →
      (scan_forks storage).Pairwise (fun q1 q2 =>
        storage.get_block_hashes.indexOf q1.1 ≤ storage.get_block_hashes.indexOf q2.1)) := by
  have heq : scan_forks storage =
      ((List.range (storage.get_block_hashes.length - 1)).map (fun i =>
          fork_records_for storage (storage.get_block_hashes.getD i 0)
            (storage.get_block_hashes.getD (i + 1) 0))).flatten := by
    by_cases hlen : storage.get_block_hashes.length < 2
    · simp only [scan_forks]
      rw [if_pos hlen]
      have h0 : storage.get_block_hashes.length - 1 = 0 := by omega
      rw [h0]
      rfl
    · simp only [scan_forks]
      rw [if_neg hlen]
      exact scanWindows_eq storage _
  refine ⟨heq, fun hnd => ?_⟩
  rw [heq, List.pairwise_flatten]
  constructor
  · intro blk hblk
    obtain ⟨i, hi, rfl⟩ := List.mem_map.mp hblk
    refine List.pairwise_of_forall_mem_list fun x hx y hy => ?_
    rw [(fork_records_for_mem _ _ _ _ hx).1, (fork_records_for_mem _ _ _ _ hy).1]
  · rw [List.pairwise_map, List.pairwise_iff_getElem]
    intro i j hi hj hij
    rw [List.length_range] at hi hj
    intro x hx y hy
    rw [List.getElem_range] at hx hy
    have hib : i + 1 < storage.get_block_hashes.length := by omega
    have hjb : j + 1 < storage.get_block_hashes.length := by omega
    rw [(fork_records_for_mem _ _ _ _ hx).1, (fork_records_for_mem _ _ _ _ hy).1,
      List.getD_eq_getElem _ 0 hib, List.getD_eq_getElem _ 0 hjb,
      List.indexOf_getElem hnd _ hib, List.indexOf_getElem hnd _ hjb]
    omega

/-- Witness for C6: on `storage1` (canonical hashes `[5, 3]`, no duplicates)
the fork records preserve the descending order of target blocks. -/
theorem c6_witness :
    (scan_forks storage1).Pairwise (fun q1 q2 =>
      storage1.get_block_hashes.indexOf q1.1 ≤ storage1.get_block_hashes.indexOf q2.1) :=
  (c6_scan_pairs_and_order storage1).2 (by decide)

/-- C7: cleansing a pool of mutually consistent transactions that are still
valid against the ledger succeeds, re-admits every entry in the pool's
original insertion order (the rebuilt transaction list equals the original
one), and leaves the pool observably identical — same digests, same
reservation sets.  Determinism is immediate: `cleanse_memory_pool` is a pure
function of the ledger and the starting pool. -/
theorem c7_cleanse_identity (ledger : Ledger) (p : MemoryPool)
    (hcons : mutually_consistent ledger p.transactions = true)
    (hinv : pool_invariant p) :
    (cleanse_memory_pool ledger p).1 = Except.ok () ∧
    (cleanse_memory_pool ledger p).2.transactions = p.transactions ∧
    (∀ x : Digest,
      x ∈ (cleanse_memory_pool ledger p).2.serial_numbers ↔ x ∈ p.serial_numbers) ∧
    (∀ x : Digest,
      x ∈ (cleanse_memory_pool ledger p).2.commitments ↔ x ∈ p.commitments) ∧
    (∀ x : Digest,
      x ∈ (cleanse_memory_pool ledger p).2.memos ↔ x ∈ p.memos) := by
  simp only [mutually_consistent, Bool.and_eq_true, List.all_eq_true] at hcons
  obtain ⟨hall, hdisj⟩ := hcons
  have hfresh : ∀ kv ∈ p.transactions,
      tx_fresh_for MemoryPool.empty kv.2.transaction = true := by
    intro kv hkv
    simp [tx_fresh_for, MemoryPool.empty, containsKey]
  obtain ⟨h1, h2, h3, h4, h5⟩ := cleanseLoop_consistent ledger p p.transactions
    MemoryPool.empty
    (fun kv hkv => by simpa [Bool.and_eq_true] using hall kv hkv)
    hdisj hfresh
  simp only [cleanse_memory_pool, cleanse_with]
  refine ⟨h1, by simpa [MemoryPool.empty] using h2, fun x => ?_, fun x => ?_, fun x => ?_⟩
  · rw [h3 x]
    simp only [MemoryPool.empty, List.not_mem_nil, false_or]
    exact (hinv.1 x).symm
  · rw [h4 x]
    simp only [MemoryPool.empty, List.not_mem_nil, false_or]
    exact (hinv.2.1 x).symm
  · rw [h5 x]
    simp only [MemoryPool.empty, List.not_mem_nil, false_or]
    exact (hinv.2.2 x).symm

/-- Witness for C7: cleansing `poolA` (one consistent transaction, fresh
ledger) rebuilds exactly the original transaction list. -/
theorem c7_witness :
    (cleanse_memory_pool ledger0 poolA).2.transactions = poolA.transactions :=
  (c7_cleanse_identity ledger0 poolA (by decide)
    (by refine ⟨fun x => ?_, fun x => ?_, fun x => ?_⟩ <;> simp [poolA, txA])).2.1

/-- C8: whenever the storage adapter returns fewer than 2 canonical hashes,
`scan_forks` returns the empty sequence. -/
theorem c8_short_history_no_forks (storage : Storage)
    (h : storage.get_block_hashes.length < 2) : scan_forks storage = [] := by
  simp only [scan_forks]
  rw [if_pos h]

/-- Witness for C8: on an empty canonical history the scan is empty. -/
theorem c8_witness : scan_forks storage0 = [] :=
  c8_short_history_no_forks storage0 (by decide)

/-- C9: `increment` performs exactly one outbound protocol action per call —
with a non-empty header queue it sends exactly one `GetBlock` for the head of
the queue and advances the queue by one; with an empty queue and syncing active
it sends exactly one `GetSync` with an empty starting sequence. -/
theorem c9_increment_one_message (h : SyncHandler) :
    (∀ (d : Digest) (rest : List Digest), h.block_headers = d :: rest →
        increment h = ([SyncMessage.GetBlock d], { h with block_headers := rest })) ∧
    (h.block_headers = [] → h.syncing = true →
        increment h = ([SyncMessage.GetSync []], h)) := by
  obtain ⟨bh, sy⟩ := h
  constructor
  · rintro d rest rfl
    rfl
  · rintro rfl rfl
    rfl

/-- Witness for C9: a handler with queued headers `[7, 8]` sends `GetBlock 7`
and keeps `[8]`; a handler with an empty queue and syncing active sends
`GetSync []`. -/
theorem c9_witness :
    increment handlerA = ([SyncMessage.GetBlock 7], { handlerA with block_headers := [8] }) ∧
    increment handlerB = ([SyncMessage.GetSync []], handlerB) :=
  ⟨(c9_increment_one_message handlerA).1 7 [8] (by rfl),
   (c9_increment_one_message handlerB).2 (by rfl) (by rfl)⟩

/-- C10: `insert_into_mempool` returns `Ok` on every input — it has no error
path — and consequently `cleanse_memory_pool` never takes its rollback branch
and always returns `Ok`. -/
theorem c10_no_error_paths :
    (∀ (ledger : Ledger) (p : MemoryPool) (t : SerialTransaction),
        (insert_into_mempool ledger p t).isOk = true) ∧
    (∀ (ledger : Ledger) (p : MemoryPool),
        (cleanse_memory_pool ledger p).1 = Except.ok ()) := by
  constructor
  · intro ledger p t
    obtain ⟨r, hr⟩ := insert_into_mempool_ok ledger p t
    rw [hr]
    rfl
  · intro ledger p
    exact cleanseLoop_insert_ok ledger p p.transactions MemoryPool.empty

end SnarkOS
